import Mathlib

/-!
Verification of the toggl-timewax synchroniser core: the naming-convention
codec, the hierarchy sync (sync_to_toggl) and the entry reconciler
(sync_to_timewax), embedded from src/toggl_timewax/main.py and
src/toggl_timewax/cli.py. Strings are modelled as lists of characters and
durations as rational numbers of seconds (the source converts the Timewax
hours field with float(hours) * 3600).
-/

namespace TogglTimewax

/-- The separator of the naming convention, the three characters of " - ". -/
def sepChars : List Char := " - ".toList

/-- The marker that embeds the Toggl guid in a Timewax description. -/
def idPat : List Char := "ID:".toList

/-- Whether the first list is an initial segment of the second. -/
def startsWithSeq : List Char → List Char → Bool
  | [], _ => true
  | _ :: _, [] => false
  | a :: as, b :: bs => a == b && startsWithSeq as bs

/-- Python str.split(sep, 1): split at the first occurrence of sep, returning
the part before and the part after, or none when sep does not occur (in the
source the resulting single-element unpacking raises ValueError). -/
def splitOnFirst (sep : List Char) : List Char → Option (List Char × List Char)
  | [] => none
  | c :: cs =>
    if startsWithSeq sep (c :: cs) then some ([], List.drop sep.length (c :: cs))
    else
      match splitOnFirst sep cs with
      | some (a, b) => some (c :: a, b)
      | none => none

/-- Python str.rsplit(pat, 1)[-1] guarded by a containment test: the text after
the last occurrence of pat, or none when pat does not occur. -/
def afterLast (pat : List Char) : List Char → Option (List Char)
  | [] => none
  | c :: cs =>
    match afterLast pat cs with
    | some r => some r
    | none =>
      if startsWithSeq pat (c :: cs) then some (List.drop pat.length (c :: cs)) else none

/-- Number of leading decimal digits of a string. The source check
re.match(r"[0-9]{7,10}", code) succeeds exactly when this is at least 7. -/
def leadDigits (s : List Char) : Nat := (s.takeWhile Char.isDigit).length

/-- Mirrors ClientProject in main.py: a client in Toggl, a project in Timewax. -/
structure ClientProject where
  name : List Char
  timewax_code : List Char
  toggl_id : Option Nat
deriving DecidableEq, Repr

/-- The toggl_name property: timewax_code + " - " + name. -/
def ClientProject.toggl_name (c : ClientProject) : List Char :=
  c.timewax_code ++ sepChars ++ c.name

/-- ClientProject.from_toggl in main.py: split the Toggl client name on the
first " - "; raise (modelled as none) when there is no separator or the code
part does not start with at least 7 digits. -/
def ClientProject.from_toggl (nm : List Char) (i : Option Nat) : Option ClientProject :=
  match splitOnFirst sepChars nm with
  | none => none
  | some (code, rest) =>
    if 7 ≤ leadDigits code then some ⟨rest, code, i⟩ else none

/-- Mirrors ProjectBreakdown in main.py: a project in Toggl, a breakdown in
Timewax. -/
structure ProjectBreakdown where
  name : List Char
  timewax_code : List Char
  toggl_client_id : Option Nat
  toggl_id : Option Nat
deriving DecidableEq, Repr

/-- The toggl_name property: timewax_code + " - " + name. -/
def ProjectBreakdown.toggl_name (p : ProjectBreakdown) : List Char :=
  p.timewax_code ++ sepChars ++ p.name

/-- ProjectBreakdown.from_toggl in main.py: split the Toggl project name on the
first " - "; on ValueError the source logs and returns Python None (modelled as
none). There is no digit check here, unlike the client case. -/
def ProjectBreakdown.from_toggl (nm : List Char) (cid i : Option Nat) :
    Option ProjectBreakdown :=
  match splitOnFirst sepChars nm with
  | none => none
  | some (code, rest) => some ⟨rest, code, cid, i⟩

/-- Follows the wording of the spec, for comparison with the source behaviour:
a 7 to 10 digit numeric code. -/
def specNumericCode (s : List Char) : Bool :=
  decide (7 ≤ s.length) && decide (s.length ≤ 10) && s.all Char.isDigit

/-- Lookup in an association list keyed by Nat, first match wins (Python dict
lookup; keys are unique). -/
def lookupA {α : Type} : List (Nat × α) → Nat → Option α
  | [], _ => none
  | (k0, v0) :: rest, k => if k0 = k then some v0 else lookupA rest k

/-- Python dict assignment d[k] = v: replace the value in place when the key
exists, otherwise append, preserving insertion order. -/
def updateA {α : Type} : List (Nat × α) → Nat → α → List (Nat × α)
  | [], k, v => [(k, v)]
  | (k0, v0) :: rest, k, v =>
    if k0 = k then (k0, v) :: rest else (k0, v0) :: updateA rest k v

/-- The loop body of Toggl.get_all_clients over the raw (id, name) records:
clients whose name raises EntryMismatchException are skipped. -/
def Toggl.get_all_clients_from (acc : List (Nat × ClientProject)) :
    List (Nat × List Char) → List (Nat × ClientProject)
  | [] => acc
  | (i, nm) :: rest =>
    match ClientProject.from_toggl nm (some i) with
    | none => Toggl.get_all_clients_from acc rest
    | some c => Toggl.get_all_clients_from (updateA acc i c) rest

/-- Toggl.get_all_clients in main.py, over the raw (id, name) records of the
API response. -/
def Toggl.get_all_clients (raw : List (Nat × List Char)) : List (Nat × ClientProject) :=
  Toggl.get_all_clients_from [] raw

/-- Mirrors TimeEntry in main.py, with the fields of its constructor. -/
structure TimeEntry where
  guid : List Char
  description : Option (List Char)
  duration : ℚ
  pid : Option Nat
  start : Option (List Char)
  stop : Option (List Char)
  wid : Option Nat
  resource : Option (List Char)
  breakdown : Option (List Char)
  project : Option (List Char)
deriving DecidableEq, Repr

/-- Python truthiness of an optional string: None and the empty string are
falsy. -/
def truthy : Option (List Char) → Bool
  | none => false
  | some s => !s.isEmpty

/-- Lookup in an association list keyed by guid (Python dict lookup). -/
def lookupG : List (List Char × TimeEntry) → List Char → Option TimeEntry
  | [], _ => none
  | (k, v) :: rest, g => if k = g then some v else lookupG rest g

/-- The entry loop of sync_to_timewax in cli.py: skip entries without a stop,
pass through entries whose guid is absent from the Timewax snapshot, and for
present guids append a compensating entry (the same object with its duration
decremented by the Timewax total) exactly when the signed difference exceeds
60 seconds. -/
def sync_to_timewax (recent_timewax : List (List Char × TimeEntry)) :
    List TimeEntry → List TimeEntry
  | [] => []
  | e :: rest =>
    if !truthy e.stop then sync_to_timewax recent_timewax rest
    else
      match lookupG recent_timewax e.guid with
      | none => e :: sync_to_timewax recent_timewax rest
      | some tw =>
        if e.duration - tw.duration > 60 then
          { e with duration := e.duration - tw.duration } :: sync_to_timewax recent_timewax rest
        else sync_to_timewax recent_timewax rest

/-- The fields of a raw Timewax entries/list record used by
TimeEntry.from_timewax. -/
structure RawTimewax where
  description : Option (List Char)
  project : Option (List Char)
  hours : ℚ
deriving DecidableEq, Repr

/-- TimeEntry.from_timewax in main.py: duration is hours times 3600, the guid
is the text after the last "ID:" marker of the description; a falsy
description or a missing marker raises EntryMismatchException (none). -/
def TimeEntry.from_timewax (r : RawTimewax) : Option TimeEntry :=
  match r.description with
  | none => none
  | some d =>
    if d.isEmpty then none
    else
      match afterLast idPat d with
      | none => none
      | some g => some ⟨g, some d, r.hours * 3600, none, none, none, none, none, none, r.project⟩

/-- In-place duration increment of the entry stored under a guid:
entries[guid].duration += duration. -/
def bumpDur : List (List Char × TimeEntry) → List Char → ℚ → List (List Char × TimeEntry)
  | [], _, _ => []
  | (k, v) :: rest, g, d =>
    if k = g then (k, { v with duration := v.duration + d }) :: rest
    else (k, v) :: bumpDur rest g d

/-- One iteration of the duplicate-guid merge in Timewax.get_recent_entries:
sum the duration into the existing entry, or insert the new one. -/
def insertEntry (m : List (List Char × TimeEntry)) (e : TimeEntry) :
    List (List Char × TimeEntry) :=
  match lookupG m e.guid with
  | some _ => bumpDur m e.guid e.duration
  | none => m ++ [(e.guid, e)]

/-- The entry loop of Timewax.get_recent_entries: records that raise
EntryMismatchException are skipped, the rest are merged by guid. -/
def Timewax.get_recent_entries_from (m : List (List Char × TimeEntry)) :
    List RawTimewax → List (List Char × TimeEntry)
  | [] => m
  | r :: rs =>
    match TimeEntry.from_timewax r with
    | none => Timewax.get_recent_entries_from m rs
    | some e => Timewax.get_recent_entries_from (insertEntry m e) rs

/-- Timewax.get_recent_entries in main.py, over the raw records of the API
response. -/
def Timewax.get_recent_entries (raws : List RawTimewax) : List (List Char × TimeEntry) :=
  Timewax.get_recent_entries_from [] raws

/-- The parsed entries of a raw record list that carry a given guid. -/
def parsedWith (g : List Char) (l : List RawTimewax) : List TimeEntry :=
  (l.filterMap TimeEntry.from_timewax).filter (fun e => e.guid == g)

/-- Total duration of the parsed entries of a raw record list carrying a given
guid. -/
def sumDur (g : List Char) (l : List RawTimewax) : ℚ :=
  ((parsedWith g l).map TimeEntry.duration).sum

/-- A create operation performed against the Toggl API by the hierarchy sync. -/
inductive Op where
  | createClient (name : List Char)
  | createProject (cid : Nat) (name : List Char)
deriving DecidableEq, Repr

/-- The Toggl-side snapshot state: self.clients maps client ids to parsed
clients; self.projects maps client ids to dictionaries from project ids to
the result of ProjectBreakdown.from_toggl, which the source stores without
checking for Python None. -/
structure TogglState where
  clients : List (Nat × ClientProject)
  projects : List (Nat × List (Nat × Option ProjectBreakdown))
deriving DecidableEq, Repr

/-- Toggl.has_client: membership of the name among the toggl_name values of
self.clients. -/
def Toggl.has_client (st : TogglState) (nm : List Char) : Bool :=
  st.clients.any (fun kv => kv.2.toggl_name == nm)

/-- Toggl.get_client_id: the id of the first client whose toggl_name matches,
in insertion order. -/
def Toggl.get_client_id (st : TogglState) (nm : List Char) : Option Nat :=
  (st.clients.find? (fun kv => kv.2.toggl_name == nm)).map (fun kv => kv.1)

/-- Toggl.client_has_project: raises (none) when the client id is unknown or
when building the name set hits a Python None stored by get_all_projects or
add_project; otherwise whether some project of the client has the name.
A client id absent from self.projects defaults to the empty dict. -/
def Toggl.client_has_project (st : TogglState) (nm : List Char) (cid : Nat) : Option Bool :=
  match lookupA st.clients cid with
  | none => none
  | some _ =>
    match lookupA st.projects cid with
    | none => some false
    | some prjs =>
      if prjs.any (fun kv => kv.2.isNone) then none
      else some (prjs.any (fun kv =>
        match kv.2 with
        | some p => p.toggl_name == nm
        | none => false))

/-- Toggl.add_client, with the server reply modelled as an echo of the sent
name plus a fresh id: the created client is parsed back with from_toggl (an
EntryMismatchException there is an uncaught crash, modelled as none) and both
snapshots are updated. -/
def Toggl.add_client (st : TogglState) (fresh : Nat) (nm : List Char) : Option TogglState :=
  match ClientProject.from_toggl nm (some fresh) with
  | none => none
  | some c => some ⟨updateA st.clients fresh c, updateA st.projects fresh []⟩

/-- Toggl.add_project, with the server reply modelled as an echo of the sent
name plus a fresh id: the stored value is the raw result of
ProjectBreakdown.from_toggl, and a missing client key falls back to creating
the inner dict (the KeyError branch of the source). -/
def Toggl.add_project (st : TogglState) (cid : Nat) (fresh : Nat) (nm : List Char) : TogglState :=
  match lookupA st.projects cid with
  | some prjs =>
    ⟨st.clients, updateA st.projects cid
      (updateA prjs fresh (ProjectBreakdown.from_toggl nm (some cid) (some fresh)))⟩
  | none =>
    ⟨st.clients, updateA st.projects cid
      [(fresh, ProjectBreakdown.from_toggl nm (some cid) (some fresh))]⟩

/-- The first step of the sync_to_toggl loop body: when no client with the
name exists, create it (recording the operation and consuming a fresh id). -/
def ensure_client (st : TogglState) (fresh : Nat) (nm : List Char) :
    Option (TogglState × Nat × List Op) :=
  if Toggl.has_client st nm then some (st, fresh, ([] : List Op))
  else
    match Toggl.add_client st fresh nm with
    | none => none
    | some st1 => some (st1, fresh + 1, [Op.createClient nm])

/-- One iteration of the sync_to_toggl loop in cli.py for a (client_project,
project_breakdown) pair: create the client when its name is missing, look its
id up, and when the project name is missing under that client and the
authorization probe passes, create the project. The authorization check is an
abstract boolean function standing for Timewax.check_breakdown_authorization.
Returns the new state, the next fresh id and the create operations performed;
none models an uncaught exception. -/
def syncPair (auth : ClientProject → ProjectBreakdown → Bool)
    (st : TogglState) (fresh : Nat) (cp : ClientProject) (pb : ProjectBreakdown) :
    Option (TogglState × Nat × List Op) :=
  match ensure_client st fresh cp.toggl_name with
  | none => none
  | some (st1, fresh1, ops1) =>
    match Toggl.get_client_id st1 cp.toggl_name with
    | none => none
    | some cid =>
      match Toggl.client_has_project st1 pb.toggl_name cid with
      | none => none
      | some true => some (st1, fresh1, ops1)
      | some false =>
        if auth cp pb then
          some (Toggl.add_project st1 cid fresh1 pb.toggl_name, fresh1 + 1,
                ops1 ++ [Op.createProject cid pb.toggl_name])
        else some (st1, fresh1, ops1)

/-- sync_to_toggl in cli.py: the loop over the (client_project,
project_breakdown) pairs that timewax.list_my_projects yields. -/
def sync_to_toggl (auth : ClientProject → ProjectBreakdown → Bool) :
    List (ClientProject × ProjectBreakdown) → TogglState → Nat →
    Option (TogglState × Nat × List Op)
  | [], st, fresh => some (st, fresh, [])
  | (cp, pb) :: rest, st, fresh =>
    match syncPair auth st fresh cp pb with
    | none => none
    | some (st1, fresh1, ops1) =>
      match sync_to_toggl auth rest st1 fresh1 with
      | none => none
      | some (st2, fresh2, ops2) => some (st2, fresh2, ops1 ++ ops2)

/-- All ids present in the state are below the fresh-id counter. -/
def boundState (st : TogglState) (fresh : Nat) : Prop :=
  (∀ kv ∈ st.clients, kv.1 < fresh) ∧
  (∀ kv ∈ st.projects, kv.1 < fresh ∧ ∀ pv ∈ kv.2, pv.1 < fresh)

/-- The project dictionary of a client id, defaulting to empty. -/
def prjList (st : TogglState) (cid : Nat) : List (Nat × Option ProjectBreakdown) :=
  (lookupA st.projects cid).getD []

/-- One state extends another: clients only appended, and every project
dictionary only appended with parsed (non-None) values. -/
def stExtends (st st2 : TogglState) : Prop :=
  (∃ d, st2.clients = st.clients ++ d) ∧
  (∀ cid, ∃ d, prjList st2 cid = prjList st cid ++ d ∧ ∀ pv ∈ d, pv.2.isSome = true)

/-- A pair is done in a state: the client name exists, its id resolves, and
the project name either exists under that id or the pair fails the
authorization check. -/
def pairDone (auth : ClientProject → ProjectBreakdown → Bool)
    (st : TogglState) (cp : ClientProject) (pb : ProjectBreakdown) : Prop :=
  Toggl.has_client st cp.toggl_name = true ∧
  ∃ cid, Toggl.get_client_id st cp.toggl_name = some cid ∧
    (Toggl.client_has_project st pb.toggl_name cid = some true ∨
     (Toggl.client_has_project st pb.toggl_name cid = some false ∧ auth cp pb = false))

/-- Timewax-side entry of 200 seconds, guid g. -/
def twC1 : TimeEntry := ⟨"g".toList, none, 200, none, none, none, none, none, none, none⟩

/-- Toggl-side entry of 0 seconds with a stop date, guid g. -/
def eC1 : TimeEntry :=
  ⟨"g".toList, none, 0, none, none, some "2018-01-01".toList, none, none, none, none⟩

/-- Timewax-side entry of 300 seconds, guid h. -/
def twC1w : TimeEntry := ⟨"h".toList, none, 300, none, none, none, none, none, none, none⟩

/-- Toggl-side entry of 500 seconds with a stop date, guid h. -/
def eC1w : TimeEntry :=
  ⟨"h".toList, none, 500, none, none, some "2018-01-02".toList, none, none, none, none⟩

/-- Timewax-side entry of 3600 seconds, guid X. -/
def twC5 : TimeEntry := ⟨"X".toList, none, 3600, none, none, none, none, none, none, none⟩

/-- Toggl-side entry of 3720 seconds with a stop date, guid X. -/
def eC5 : TimeEntry :=
  ⟨"X".toList, none, 3720, none, none, some "2018-01-03".toList, none, none, none, none⟩

/-- A running Toggl entry: no stop date. -/
def eC8 : TimeEntry := ⟨"r".toList, none, 100, none, none, none, none, none, none, none⟩

/-- A stopped Toggl entry whose guid appears in no Timewax snapshot. -/
def eC9 : TimeEntry :=
  ⟨"n".toList, none, 50, none, none, some "2018-01-04".toList, none, none, none, none⟩

/-- Timewax-side entry of 100 seconds, guid f. -/
def twC10 : TimeEntry :=
  ⟨"f".toList, some "desc".toList, 100, none, none, none, none, none, none, none⟩

/-- Toggl-side entry of 1000 seconds with all optional fields populated. -/
def eC10 : TimeEntry :=
  ⟨"f".toList, some "desc".toList, 1000, some 5, some "s1".toList, some "s2".toList,
   some 7, none, some "bd".toList, some "pj".toList⟩

/-- Raw Timewax record of half an hour whose description embeds guid g. -/
def rawC4a : RawTimewax := ⟨some "a ID:g".toList, none, 1/2⟩

/-- Raw Timewax record of a quarter hour whose description embeds guid g. -/
def rawC4b : RawTimewax := ⟨some "b ID:g".toList, none, 1/4⟩

/-- Example Timewax project P with a 7 digit code. -/
def cpC2 : ClientProject := ⟨"P".toList, "1234567".toList, none⟩

/-- Example Timewax breakdown B under project P. -/
def pbC2 : ProjectBreakdown := ⟨"B".toList, "1234567.1".toList, none, none⟩

/-- Example Timewax project Q with a 7 digit code. -/
def cpC7 : ClientProject := ⟨"Q".toList, "7654321".toList, none⟩

/-- Example Timewax breakdown C under project Q. -/
def pbC7 : ProjectBreakdown := ⟨"C".toList, "7654321.1".toList, none, none⟩

/-- The Toggl state after syncing project P alone, with its breakdown denied. -/
def stC2 : TogglState := ⟨[(0, ⟨"P".toList, "1234567".toList, some 0⟩)], [(0, [])]⟩

/-- The Toggl state after syncing project P with breakdown B authorized. -/
def stC2b : TogglState :=
  ⟨[(0, ⟨"P".toList, "1234567".toList, some 0⟩)],
   [(0, [(1, some ⟨"B".toList, "1234567.1".toList, some 0, some 1⟩)])]⟩

/-- The Toggl state after syncing project Q with breakdown C authorized. -/
def stC7 : TogglState :=
  ⟨[(0, ⟨"Q".toList, "7654321".toList, some 0⟩)],
   [(0, [(1, some ⟨"C".toList, "7654321.1".toList, some 0, some 1⟩)])]⟩

theorem startsWithSeq_eq (sep : List Char) :
    ∀ s, startsWithSeq sep s = true → s = sep ++ List.drop sep.length s := by
  induction sep with
  | nil => intro s _; simp
  | cons a as ih =>
    intro s h
    cases s with
    | nil => simp [startsWithSeq] at h
    | cons b bs =>
      rw [startsWithSeq, Bool.and_eq_true, beq_iff_eq] at h
      obtain ⟨rfl, h2⟩ := h
      simpa using ih bs h2

theorem startsWithSeq_self_append (p s : List Char) : startsWithSeq p (p ++ s) = true := by
  induction p with
  | nil => simp [startsWithSeq]
  | cons a as ih => simpa [startsWithSeq] using ih

theorem splitOnFirst_rejoin (sep : List Char) :
    ∀ s a b, splitOnFirst sep s = some (a, b) → s = a ++ sep ++ b := by
  intro s
  induction s with
  | nil => intro a b h; simp [splitOnFirst] at h
  | cons c cs ih =>
    intro a b h
    rw [splitOnFirst] at h
    split at h
    · next hsw =>
      simp only [Option.some.injEq, Prod.mk.injEq] at h
      obtain ⟨ha, hb⟩ := h
      subst ha; subst hb
      simpa using startsWithSeq_eq sep (c :: cs) hsw
    · next hsw =>
      cases hrec : splitOnFirst sep cs with
      | none => rw [hrec] at h; simp at h
      | some p =>
        rw [hrec] at h
        cases p with
        | mk a2 b2 =>
          simp only [Option.some.injEq, Prod.mk.injEq] at h
          obtain ⟨ha, hb⟩ := h
          subst ha; subst hb
          have hcs := ih a2 b2 hrec
          simp only [List.cons_append]
          exact congrArg (List.cons c) hcs

theorem splitOnFirst_append_isSome (sep : List Char) (hne : sep ≠ []) :
    ∀ a b, (splitOnFirst sep (a ++ sep ++ b)).isSome = true := by
  intro a
  induction a with
  | nil =>
    intro b
    simp only [List.nil_append]
    cases hss : sep ++ b with
    | nil =>
      cases sep with
      | nil => exact absurd rfl hne
      | cons x xs => simp at hss
    | cons y ys =>
      have hpos : startsWithSeq sep (sep ++ b) = true := startsWithSeq_self_append sep b
      rw [hss] at hpos
      rw [splitOnFirst, if_pos hpos]
      rfl
  | cons c cs ih =>
    intro b
    rw [List.cons_append, List.cons_append, splitOnFirst]
    split
    · rfl
    · have h2 := ih b
      simp only [List.append_assoc] at h2 ⊢
      cases hrec : splitOnFirst sep (cs ++ (sep ++ b)) with
      | none => rw [hrec] at h2; simp at h2
      | some p =>
        cases p with
        | mk x y => rfl

theorem sepChars_explicit : sepChars = Char.ofNat 32 :: Char.ofNat 45 :: Char.ofNat 32 :: [] := by
  decide

theorem space_beq_of_digit (c : Char) (h : c.isDigit = true) : (Char.ofNat 32 == c) = false := by
  cases hb : (Char.ofNat 32 == c) with
  | false => rfl
  | true =>
    rw [beq_iff_eq] at hb
    rw [← hb] at h
    exact absurd h (by decide)

theorem digits_split (a b : List Char) (ha : ∀ c ∈ a, c.isDigit = true) :
    splitOnFirst sepChars (a ++ sepChars ++ b) = some (a, b) := by
  induction a with
  | nil =>
    simp only [List.nil_append]
    have hpos : startsWithSeq sepChars (sepChars ++ b) = true :=
      startsWithSeq_self_append sepChars b
    cases hs : sepChars ++ b with
    | nil => rw [sepChars_explicit] at hs; simp at hs
    | cons x xs =>
      rw [hs] at hpos
      rw [splitOnFirst, if_pos hpos, ← hs]
      rw [sepChars_explicit]
      simp
  | cons c cs ih =>
    have hc : c.isDigit = true := ha c (by simp)
    have ihh := ih (fun x hx => ha x (by simp [hx]))
    rw [List.cons_append, List.cons_append, splitOnFirst]
    rw [if_neg]
    · simp only [List.append_assoc] at ihh ⊢
      rw [ihh]
    · rw [sepChars_explicit, startsWithSeq]
      rw [space_beq_of_digit c hc]
      simp

theorem leadDigits_of_all (s : List Char) (h : ∀ c ∈ s, c.isDigit = true) :
    leadDigits s = s.length := by
  unfold leadDigits
  rw [List.takeWhile_eq_self_iff.mpr h]

/-- C6: for every 7 to 10 digit numeric code and every name, parsing the
display name produced by the naming convention recovers exactly the original
pair: ClientProject.from_toggl applied to a record named code + " - " + name
yields timewax_code = code and name = name. -/
theorem c6_roundtrip (code nm : List Char) (i : Option Nat)
    (h7 : 7 ≤ code.length) (h10 : code.length ≤ 10)
    (hd : ∀ c ∈ code, c.isDigit = true) :
    ClientProject.from_toggl (code ++ sepChars ++ nm) i = some ⟨nm, code, i⟩ := by
  unfold ClientProject.from_toggl
  rw [digits_split code nm hd]
  simp only [leadDigits_of_all code hd]
  rw [if_pos h7]

/-- Witness for C6 at the code 1234567 and the name Proj. -/
theorem c6_witness :
    ClientProject.from_toggl ("1234567".toList ++ sepChars ++ "Proj".toList) none =
      some ⟨"Proj".toList, "1234567".toList, none⟩ :=
  c6_roundtrip "1234567".toList "Proj".toList none (by decide) (by decide) (by decide)

theorem gac_skip (i : Nat) (nm : List Char) (ys : List (Nat × List Char))
    (hbad : ClientProject.from_toggl nm (some i) = none) :
    ∀ xs acc, Toggl.get_all_clients_from acc (xs ++ (i, nm) :: ys) =
      Toggl.get_all_clients_from acc (xs ++ ys) := by
  intro xs
  induction xs with
  | nil =>
    intro acc
    simp only [List.nil_append]
    rw [Toggl.get_all_clients_from, hbad]
  | cons p ps ih =>
    intro acc
    cases p with
    | mk j nm2 =>
      rw [List.cons_append, List.cons_append, Toggl.get_all_clients_from,
        Toggl.get_all_clients_from]
      cases h : ClientProject.from_toggl nm2 (some j) with
      | none => exact ih acc
      | some c => exact ih (updateA acc j c)

/-- C3 (corrected): the display name of a node violating the spec pattern can
still parse: the project name "ab - cd" splits on " - " yet its code "ab" is
not a 7 to 10 digit numeric code, and ProjectBreakdown.from_toggl succeeds on
it, refuting that parsing succeeds exactly on the spec pattern. -/
theorem c3_counterexample :
    (ProjectBreakdown.from_toggl "ab - cd".toList none none).isSome = true ∧
    splitOnFirst sepChars "ab - cd".toList = some ("ab".toList, "cd".toList) ∧
    specNumericCode "ab".toList = false := by
  decide

/-- C3 (amended): client-node parsing succeeds exactly when the display name
splits on " - " and the code part starts with at least 7 digits; project-node
parsing succeeds exactly when the name splits on " - " with no digit
requirement; a client whose name fails to parse is skipped by
Toggl.get_all_clients and the remaining nodes still load. -/
theorem c3_parse_rules :
    (∀ nm i, (ClientProject.from_toggl nm i).isSome = true ↔
      ∃ code rest, splitOnFirst sepChars nm = some (code, rest) ∧ 7 ≤ leadDigits code) ∧
    (∀ nm cid i, (ProjectBreakdown.from_toggl nm cid i).isSome = true ↔
      (splitOnFirst sepChars nm).isSome = true) ∧
    (∀ xs ys i nm, ClientProject.from_toggl nm (some i) = none →
      Toggl.get_all_clients (xs ++ (i, nm) :: ys) = Toggl.get_all_clients (xs ++ ys)) := by
  refine ⟨?_, ?_, ?_⟩
  · intro nm i
    unfold ClientProject.from_toggl
    cases h : splitOnFirst sepChars nm with
    | none => simp
    | some p =>
      cases p with
      | mk code rest =>
        by_cases h7 : 7 ≤ leadDigits code
        · constructor
          · intro _; exact ⟨code, rest, rfl, h7⟩
          · intro _; simp [h7]
        · constructor
          · intro hcon; simp [h7] at hcon
          · intro hcon
            obtain ⟨c2, r2, hc, h72⟩ := hcon
            simp only [Option.some.injEq, Prod.mk.injEq] at hc
            obtain ⟨rfl, rfl⟩ := hc
            exact absurd h72 h7
  · intro nm cid i
    unfold ProjectBreakdown.from_toggl
    cases h : splitOnFirst sepChars nm with
    | none => simp
    | some p =>
      cases p with
      | mk a b2 => simp
  · intro xs ys i nm hbad
    unfold Toggl.get_all_clients
    exact gac_skip i nm ys hbad xs []

/-- Witness for C3: a client list where the first name fails the convention
loads the same snapshot as the list without it. -/
theorem c3_witness :
    Toggl.get_all_clients [(0, "bogus".toList), (1, "1234567 - P".toList)] =
      Toggl.get_all_clients [(1, "1234567 - P".toList)] :=
  c3_parse_rules.2.2 [] [(1, "1234567 - P".toList)] 0 "bogus".toList (by decide)

theorem sync_nil (recent : List (List Char × TimeEntry)) :
    sync_to_timewax recent [] = [] := rfl

theorem sync_cons (recent : List (List Char × TimeEntry)) (e : TimeEntry)
    (rest : List TimeEntry) :
    sync_to_timewax recent (e :: rest) =
      if !truthy e.stop then sync_to_timewax recent rest
      else
        match lookupG recent e.guid with
        | none => e :: sync_to_timewax recent rest
        | some tw =>
          if e.duration - tw.duration > 60 then
            { e with duration := e.duration - tw.duration } :: sync_to_timewax recent rest
          else sync_to_timewax recent rest := by
  rw [sync_to_timewax]

/-- C1 (corrected): for an entry with a stop date whose guid is in the Timewax
snapshot, a compensating entry is emitted exactly when the signed difference
trackerDuration - catalogDuration exceeds 60 seconds, and its duration is
that difference, hence always positive; the absolute difference is not used. -/
theorem c1_compensate (recent : List (List Char × TimeEntry)) (e tw : TimeEntry)
    (rest : List TimeEntry) (hstop : truthy e.stop = true)
    (hlook : lookupG recent e.guid = some tw) :
    sync_to_timewax recent (e :: rest) =
      (if 60 < e.duration - tw.duration
        then [{ e with duration := e.duration - tw.duration }] else []) ++
        sync_to_timewax recent rest := by
  rw [sync_cons, hstop, hlook]
  by_cases h : 60 < e.duration - tw.duration
  · simp [h, GT.gt]
  · simp [h, GT.gt]

/-- C1 counterexample: the Toggl entry lasts 0 seconds and the Timewax total is
200 seconds, so the absolute difference exceeds 60, yet the reconciler emits
nothing: the source comparison is signed, and no negative compensating entry
exists. -/
theorem c1_counterexample :
    truthy eC1.stop = true ∧ lookupG [(eC1.guid, twC1)] eC1.guid = some twC1 ∧
    |eC1.duration - twC1.duration| > 60 ∧
    sync_to_timewax [(eC1.guid, twC1)] [eC1] = [] := by
  refine ⟨rfl, rfl, by norm_num [eC1, twC1], ?_⟩
  rw [sync_cons]
  norm_num [eC1, twC1, truthy, lookupG, sync_nil]

/-- Witness for C1 at durations 500 against 300: one compensating entry of 200
seconds. -/
theorem c1_witness :
    sync_to_timewax [(eC1w.guid, twC1w)] [eC1w] = [{ eC1w with duration := 200 }] := by
  rw [c1_compensate [(eC1w.guid, twC1w)] eC1w twC1w [] rfl rfl]
  norm_num [eC1w, twC1w, sync_nil]

/-- C5: at a difference of exactly 60 seconds the entry is not resubmitted
(strict comparison), and when the Toggl duration exceeds the Timewax total by
more than 60 seconds the entry is included with the signed difference as its
duration. -/
theorem c5_boundary (recent : List (List Char × TimeEntry)) (e tw : TimeEntry)
    (rest : List TimeEntry) (hstop : truthy e.stop = true)
    (hlook : lookupG recent e.guid = some tw) :
    (e.duration - tw.duration = 60 →
      sync_to_timewax recent (e :: rest) = sync_to_timewax recent rest) ∧
    (60 < e.duration - tw.duration →
      sync_to_timewax recent (e :: rest) =
        { e with duration := e.duration - tw.duration } :: sync_to_timewax recent rest) := by
  constructor
  · intro h60
    rw [sync_cons, hstop, hlook]
    simp [h60]
  · intro hgt
    rw [sync_cons, hstop, hlook]
    simp [hgt, GT.gt]

/-- Witness for C5: the spec scenario with catalog total 3600 and tracker
duration 3720 yields exactly one entry of 120 seconds. -/
theorem c5_witness :
    sync_to_timewax [(eC5.guid, twC5)] [eC5] = [{ eC5 with duration := 120 }] := by
  rw [(c5_boundary [(eC5.guid, twC5)] eC5 twC5 [] rfl rfl).2 (by norm_num [eC5, twC5])]
  norm_num [eC5, twC5, sync_nil]

theorem mem_sync_stop (recent : List (List Char × TimeEntry)) :
    ∀ l x, x ∈ sync_to_timewax recent l → truthy x.stop = true := by
  intro l
  induction l with
  | nil =>
    intro x hx
    rw [sync_nil] at hx
    simp at hx
  | cons e rest ih =>
    intro x hx
    rw [sync_cons] at hx
    cases hs : truthy e.stop with
    | false =>
      rw [hs] at hx
      simp only [Bool.not_false, if_true] at hx
      exact ih x hx
    | true =>
      rw [hs] at hx
      simp only [Bool.not_true, Bool.false_eq_true, if_false] at hx
      cases hl : lookupG recent e.guid with
      | none =>
        rw [hl] at hx
        rcases List.mem_cons.mp hx with hx1 | hx2
        · rw [hx1]; exact hs
        · exact ih x hx2
      | some tw =>
        rw [hl] at hx
        have hx2 : x ∈ (if e.duration - tw.duration > 60 then
            { e with duration := e.duration - tw.duration } :: sync_to_timewax recent rest
          else sync_to_timewax recent rest) := hx
        by_cases hc : e.duration - tw.duration > 60
        · rw [if_pos hc] at hx2
          rcases List.mem_cons.mp hx2 with hx1 | hx3
          · rw [hx1]; exact hs
          · exact ih x hx3
        · rw [if_neg hc] at hx2
          exact ih x hx2

/-- C8: an entry with no stop timestamp is never in the reconciler output,
whatever the Timewax snapshot holds. -/
theorem c8_no_stop (recent : List (List Char × TimeEntry)) (l : List TimeEntry)
    (e : TimeEntry) (hstop : e.stop = none) : e ∉ sync_to_timewax recent l := by
  intro hmem
  have h := mem_sync_stop recent l e hmem
  rw [hstop] at h
  simp [truthy] at h

/-- Witness for C8: a stopless entry is absent from the output of a run over
itself. -/
theorem c8_witness : eC8 ∉ sync_to_timewax [] [eC8] :=
  c8_no_stop [] [eC8] eC8 rfl

/-- C9: an entry with a stop date whose guid is absent from the Timewax
snapshot is passed through unchanged, as a new entry. -/
theorem c9_new_entry (recent : List (List Char × TimeEntry)) (e : TimeEntry)
    (rest : List TimeEntry) (hstop : truthy e.stop = true)
    (hlook : lookupG recent e.guid = none) :
    sync_to_timewax recent (e :: rest) = e :: sync_to_timewax recent rest := by
  rw [sync_cons, hstop, hlook]
  simp

/-- Witness for C9 on an empty Timewax snapshot. -/
theorem c9_witness : sync_to_timewax [] [eC9] = [eC9] := by
  rw [c9_new_entry [] eC9 [] rfl rfl]
  rfl

/-- C10: the compensating entry is the same record with only the duration
changed: guid, description, start, stop, project and breakdown are those of
the original Toggl entry. -/
theorem c10_frame (recent : List (List Char × TimeEntry)) (e tw : TimeEntry)
    (rest : List TimeEntry) (hstop : truthy e.stop = true)
    (hlook : lookupG recent e.guid = some tw)
    (hgt : 60 < e.duration - tw.duration) :
    ∃ e2, sync_to_timewax recent (e :: rest) = e2 :: sync_to_timewax recent rest ∧
      e2.duration = e.duration - tw.duration ∧ e2.guid = e.guid ∧
      e2.description = e.description ∧ e2.start = e.start ∧ e2.stop = e.stop ∧
      e2.project = e.project ∧ e2.breakdown = e.breakdown := by
  refine ⟨{ e with duration := e.duration - tw.duration }, ?_, rfl, rfl, rfl, rfl, rfl, rfl, rfl⟩
  rw [sync_cons, hstop, hlook]
  simp [hgt, GT.gt]

/-- Witness for C10 at durations 1000 against 100 with all fields populated. -/
theorem c10_witness :
    ∃ e2, sync_to_timewax [(eC10.guid, twC10)] [eC10] =
        e2 :: sync_to_timewax [(eC10.guid, twC10)] [] ∧
      e2.duration = eC10.duration - twC10.duration ∧ e2.guid = eC10.guid ∧
      e2.description = eC10.description ∧ e2.start = eC10.start ∧ e2.stop = eC10.stop ∧
      e2.project = eC10.project ∧ e2.breakdown = eC10.breakdown :=
  c10_frame [(eC10.guid, twC10)] eC10 twC10 [] rfl rfl (by norm_num [eC10, twC10])

theorem lookupG_append (m m2 : List (List Char × TimeEntry)) (g : List Char) :
    lookupG (m ++ m2) g = match lookupG m g with
      | some v => some v
      | none => lookupG m2 g := by
  induction m with
  | nil => simp [lookupG]
  | cons kv rest ih =>
    cases kv with
    | mk k v =>
      rw [List.cons_append, lookupG, lookupG]
      by_cases h : k = g
      · rw [if_pos h, if_pos h]
      · rw [if_neg h, if_neg h, ih]

theorem lookupG_bumpDur (m : List (List Char × TimeEntry)) (k g : List Char) (d : ℚ) :
    lookupG (bumpDur m k d) g =
      if k = g then (lookupG m g).map (fun v => { v with duration := v.duration + d })
      else lookupG m g := by
  induction m with
  | nil => by_cases h : k = g <;> simp [bumpDur, lookupG, h]
  | cons kv rest ih =>
    cases kv with
    | mk k0 v0 =>
      by_cases h0 : k0 = k
      · subst h0
        by_cases hg : k0 = g <;> simp [bumpDur, lookupG, hg]
      · by_cases hg : k0 = g
        · have hkg : ¬k = g := fun hh => h0 (hg.trans hh.symm)
          have hgk : ¬g = k := fun hh => hkg hh.symm
          simp [bumpDur, lookupG, h0, hg, hkg, hgk]
        · simp [bumpDur, lookupG, h0, hg, ih]

theorem insertEntry_hit (m : List (List Char × TimeEntry)) (e v : TimeEntry)
    (h : lookupG m e.guid = some v) : insertEntry m e = bumpDur m e.guid e.duration := by
  unfold insertEntry
  rw [h]

theorem insertEntry_new (m : List (List Char × TimeEntry)) (e : TimeEntry)
    (h : lookupG m e.guid = none) : insertEntry m e = m ++ [(e.guid, e)] := by
  unfold insertEntry
  rw [h]

theorem gre_nil (m : List (List Char × TimeEntry)) :
    Timewax.get_recent_entries_from m [] = m := rfl

theorem gre_cons_skip (m : List (List Char × TimeEntry)) (r : RawTimewax)
    (rs : List RawTimewax) (h : TimeEntry.from_timewax r = none) :
    Timewax.get_recent_entries_from m (r :: rs) = Timewax.get_recent_entries_from m rs := by
  rw [Timewax.get_recent_entries_from, h]

theorem gre_cons_add (m : List (List Char × TimeEntry)) (r : RawTimewax)
    (rs : List RawTimewax) (e : TimeEntry) (h : TimeEntry.from_timewax r = some e) :
    Timewax.get_recent_entries_from m (r :: rs) =
      Timewax.get_recent_entries_from (insertEntry m e) rs := by
  rw [Timewax.get_recent_entries_from, h]

theorem parsedWith_cons (g : List Char) (r : RawTimewax) (rs : List RawTimewax) :
    parsedWith g (r :: rs) = match TimeEntry.from_timewax r with
      | none => parsedWith g rs
      | some e => if e.guid == g then e :: parsedWith g rs else parsedWith g rs := by
  unfold parsedWith
  cases h : TimeEntry.from_timewax r with
  | none => simp [List.filterMap_cons, h]
  | some e =>
    simp only [List.filterMap_cons, h]
    by_cases hg : (e.guid == g) = true
    · simp [List.filter_cons, hg]
    · simp [List.filter_cons, hg]

theorem sumDur_cons (g : List Char) (r : RawTimewax) (rs : List RawTimewax) :
    sumDur g (r :: rs) = (match TimeEntry.from_timewax r with
      | none => 0
      | some e => if e.guid == g then e.duration else 0) + sumDur g rs := by
  unfold sumDur
  rw [parsedWith_cons]
  cases h : TimeEntry.from_timewax r with
  | none => simp
  | some e =>
    by_cases hg : (e.guid == g) = true
    · simp [hg]
    · simp [hg]

theorem gre_some (g : List Char) :
    ∀ (l : List RawTimewax) (m : List (List Char × TimeEntry)) (v : TimeEntry),
      lookupG m g = some v →
      lookupG (Timewax.get_recent_entries_from m l) g =
        some { v with duration := v.duration + sumDur g l } := by
  intro l
  induction l with
  | nil =>
    intro m v h
    rw [gre_nil, h]
    have hz : sumDur g [] = 0 := by simp [sumDur, parsedWith]
    rw [hz]
    cases v
    simp
  | cons r rs ih =>
    intro m v h
    cases hp : TimeEntry.from_timewax r with
    | none =>
      rw [gre_cons_skip m r rs hp, ih m v h, sumDur_cons, hp]
      cases v
      simp
    | some e =>
      rw [gre_cons_add m r rs e hp]
      by_cases hg : e.guid = g
      · have hh : lookupG m e.guid = some v := by rw [hg]; exact h
        rw [insertEntry_hit m e v hh]
        have hb2 : lookupG (bumpDur m e.guid e.duration) g =
            some { v with duration := v.duration + e.duration } := by
          rw [lookupG_bumpDur, if_pos hg, h]
          rfl
        rw [ih _ _ hb2]
        have hbeq : (e.guid == g) = true := beq_iff_eq.mpr hg
        simp only [sumDur_cons, hp, hbeq, if_true]
        cases v
        simp
        ring
      · have hh : lookupG (insertEntry m e) g = some v := by
          cases hl : lookupG m e.guid with
          | some w =>
            rw [insertEntry_hit m e w hl, lookupG_bumpDur, if_neg hg, h]
          | none =>
            rw [insertEntry_new m e hl, lookupG_append, h]
        rw [ih _ _ hh]
        have hbeq : (e.guid == g) = false := by simp [hg]
        simp only [sumDur_cons, hp, hbeq]
        cases v
        simp

theorem gre_none (g : List Char) :
    ∀ (l : List RawTimewax) (m : List (List Char × TimeEntry)),
      lookupG m g = none →
      lookupG (Timewax.get_recent_entries_from m l) g =
        (parsedWith g l).head?.map (fun e0 => { e0 with duration := sumDur g l }) := by
  intro l
  induction l with
  | nil =>
    intro m h
    rw [gre_nil, h]
    simp [parsedWith]
  | cons r rs ih =>
    intro m h
    cases hp : TimeEntry.from_timewax r with
    | none =>
      rw [gre_cons_skip m r rs hp, ih m h]
      simp only [parsedWith_cons, sumDur_cons, hp]
      simp
    | some e =>
      rw [gre_cons_add m r rs e hp]
      by_cases hg : e.guid = g
      · have hnew : lookupG m e.guid = none := by rw [hg]; exact h
        rw [insertEntry_new m e hnew]
        have hsome : lookupG (m ++ [(e.guid, e)]) g = some e := by
          rw [lookupG_append, h]
          simp [lookupG, hg]
        rw [gre_some g rs _ e hsome]
        simp only [parsedWith_cons, sumDur_cons, hp]
        have hbeq : (e.guid == g) = true := beq_iff_eq.mpr hg
        simp [hbeq]
      · have hkeep : lookupG (insertEntry m e) g = none := by
          cases hl : lookupG m e.guid with
          | some w =>
            rw [insertEntry_hit m e w hl, lookupG_bumpDur, if_neg hg, h]
          | none =>
            rw [insertEntry_new m e hl, lookupG_append, h]
            simp [lookupG, hg]
        rw [ih _ hkeep]
        simp only [parsedWith_cons, sumDur_cons, hp]
        have hbeq : (e.guid == g) = false := by simp [hg]
        simp [hbeq]

/-- C4: in the snapshot that Timewax.get_recent_entries builds, the entry
stored under a guid carries the sum of the durations of every parsed record
sharing that guid. -/
theorem c4_merge (l : List RawTimewax) (g : List Char) (e : TimeEntry)
    (h : lookupG (Timewax.get_recent_entries l) g = some e) :
    e.duration = sumDur g l := by
  unfold Timewax.get_recent_entries at h
  rw [gre_none g l [] rfl] at h
  cases hh : (parsedWith g l).head? with
  | none => rw [hh] at h; simp at h
  | some e0 =>
    rw [hh] at h
    simp only [Option.map_some'] at h
    injection h with h2
    rw [← h2]

/-- Witness for C4: two records of 1800 and 900 seconds sharing guid g merge
into one entry of 2700 seconds. -/
theorem c4_witness :
    ∃ e2, lookupG (Timewax.get_recent_entries [rawC4a, rawC4b]) "g".toList = some e2 ∧
      e2.duration = sumDur "g".toList [rawC4a, rawC4b] ∧
      e2.duration = 2700 := by
  have h : lookupG (Timewax.get_recent_entries [rawC4a, rawC4b]) "g".toList =
      some ⟨"g".toList, some "a ID:g".toList, (1 : ℚ)/2 * 3600 + (1 : ℚ)/4 * 3600,
        none, none, none, none, none, none, none⟩ := rfl
  refine ⟨_, h, c4_merge [rawC4a, rawC4b] "g".toList _ h, by norm_num⟩

theorem lookupA_updateA {α : Type} (l : List (Nat × α)) (k k2 : Nat) (v : α) :
    lookupA (updateA l k v) k2 = if k = k2 then some v else lookupA l k2 := by
  induction l with
  | nil => by_cases h : k = k2 <;> simp [updateA, lookupA, h]
  | cons kv rest ih =>
    cases kv with
    | mk k0 v0 =>
      by_cases h0 : k0 = k
      · subst h0
        by_cases h2 : k0 = k2 <;> simp [updateA, lookupA, h2]
      · by_cases h2 : k0 = k2
        · have hk2 : ¬k = k2 := fun hh => h0 (h2.trans hh.symm)
          have hk2b : ¬k2 = k := fun hh => hk2 hh.symm
          simp [updateA, lookupA, h0, h2, hk2, hk2b]
        · simp [updateA, lookupA, h0, h2, ih]

theorem lookupA_mem {α : Type} (l : List (Nat × α)) (k : Nat) (v : α)
    (h : lookupA l k = some v) : (k, v) ∈ l := by
  induction l with
  | nil => simp [lookupA] at h
  | cons kv rest ih =>
    cases kv with
    | mk k0 v0 =>
      rw [lookupA] at h
      by_cases h0 : k0 = k
      · rw [if_pos h0] at h
        injection h with h2
        subst h0; subst h2
        simp
      · rw [if_neg h0] at h
        simp [ih h]

theorem lookupA_none_ne {α : Type} (l : List (Nat × α)) (k : Nat)
    (h : lookupA l k = none) : ∀ kv ∈ l, kv.1 ≠ k := by
  induction l with
  | nil => simp
  | cons kv rest ih =>
    cases kv with
    | mk k0 v0 =>
      rw [lookupA] at h
      by_cases h0 : k0 = k
      · rw [if_pos h0] at h; simp at h
      · rw [if_neg h0] at h
        intro kv2 hkv2
        rcases List.mem_cons.mp hkv2 with h1 | h2
        · rw [h1]; exact h0
        · exact ih h kv2 h2

theorem updateA_append {α : Type} (l : List (Nat × α)) (k : Nat) (v : α)
    (h : ∀ kv ∈ l, kv.1 ≠ k) : updateA l k v = l ++ [(k, v)] := by
  induction l with
  | nil => rfl
  | cons kv rest ih =>
    cases kv with
    | mk k0 v0 =>
      rw [updateA, if_neg (h (k0, v0) (by simp))]
      rw [ih (fun kv hkv => h kv (by simp [hkv]))]
      rfl

theorem updateA_subset {α : Type} (l : List (Nat × α)) (k : Nat) (v : α) :
    ∀ kv ∈ updateA l k v, kv = (k, v) ∨ kv ∈ l := by
  induction l with
  | nil => simp [updateA]
  | cons kv0 rest ih =>
    cases kv0 with
    | mk k0 v0 =>
      intro kv hkv
      rw [updateA] at hkv
      by_cases h0 : k0 = k
      · rw [if_pos h0] at hkv
        rcases List.mem_cons.mp hkv with h1 | h2
        · subst h0; exact Or.inl h1
        · exact Or.inr (by simp [h2])
      · rw [if_neg h0] at hkv
        rcases List.mem_cons.mp hkv with h1 | h2
        · exact Or.inr (by simp [h1])
        · rcases ih kv h2 with h3 | h3
          · exact Or.inl h3
          · exact Or.inr (by simp [h3])

theorem lookupA_append {α : Type} (l l2 : List (Nat × α)) (k : Nat) :
    lookupA (l ++ l2) k = match lookupA l k with
      | some v => some v
      | none => lookupA l2 k := by
  induction l with
  | nil => simp [lookupA]
  | cons kv rest ih =>
    cases kv with
    | mk k0 v0 =>
      rw [List.cons_append, lookupA, lookupA]
      by_cases h : k0 = k
      · rw [if_pos h, if_pos h]
      · rw [if_neg h, if_neg h, ih]

theorem lookupA_append_some {α : Type} (l l2 : List (Nat × α)) (k : Nat) (v : α)
    (h : lookupA l k = some v) : lookupA (l ++ l2) k = some v := by
  rw [lookupA_append, h]

theorem find?_append_of_some {α : Type} (p : α → Bool) (l l2 : List α) (x : α)
    (h : l.find? p = some x) : (l ++ l2).find? p = some x := by
  induction l with
  | nil => simp [List.find?] at h
  | cons a rest ih =>
    rw [List.cons_append]
    cases hp : p a with
    | true =>
      rw [List.find?_cons_of_pos _ hp] at h
      rw [List.find?_cons_of_pos _ hp]
      exact h
    | false =>
      have hp2 : ¬p a = true := by simp [hp]
      rw [List.find?_cons_of_neg _ hp2] at h
      rw [List.find?_cons_of_neg _ hp2]
      exact ih h

theorem from_toggl_toggl_name (nm : List Char) (i : Option Nat) (c : ClientProject)
    (h : ClientProject.from_toggl nm i = some c) : c.toggl_name = nm := by
  unfold ClientProject.from_toggl at h
  cases hs : splitOnFirst sepChars nm with
  | none => rw [hs] at h; simp at h
  | some p =>
    cases p with
    | mk code rest =>
      rw [hs] at h
      have h2 : (if 7 ≤ leadDigits code
          then some (⟨rest, code, i⟩ : ClientProject) else none) = some c := h
      by_cases h7 : 7 ≤ leadDigits code
      · rw [if_pos h7] at h2
        injection h2 with h3
        rw [← h3]
        unfold ClientProject.toggl_name
        exact (splitOnFirst_rejoin sepChars nm code rest hs).symm
      · rw [if_neg h7] at h2; simp at h2

theorem pb_from_toggl_name (nm : List Char) (cid i : Option Nat) (p : ProjectBreakdown)
    (h : ProjectBreakdown.from_toggl nm cid i = some p) : p.toggl_name = nm := by
  unfold ProjectBreakdown.from_toggl at h
  cases hs : splitOnFirst sepChars nm with
  | none => rw [hs] at h; simp at h
  | some q =>
    cases q with
    | mk code rest =>
      rw [hs] at h
      have h2 : some (⟨rest, code, cid, i⟩ : ProjectBreakdown) = some p := h
      injection h2 with h3
      rw [← h3]
      unfold ProjectBreakdown.toggl_name
      exact (splitOnFirst_rejoin sepChars nm code rest hs).symm

theorem pb_from_toggl_isSome (a b : List Char) (cid i : Option Nat) :
    ∃ p, ProjectBreakdown.from_toggl (a ++ sepChars ++ b) cid i = some p := by
  have h := splitOnFirst_append_isSome sepChars (by decide) a b
  unfold ProjectBreakdown.from_toggl
  cases hs : splitOnFirst sepChars (a ++ sepChars ++ b) with
  | none => rw [hs] at h; simp at h
  | some q =>
    cases q with
    | mk x y => exact ⟨⟨y, x, cid, i⟩, rfl⟩

theorem chp_eq (st : TogglState) (nm : List Char) (cid : Nat) :
    Toggl.client_has_project st nm cid =
      match lookupA st.clients cid with
      | none => none
      | some _ =>
        if (prjList st cid).any (fun kv => kv.2.isNone) then none
        else some ((prjList st cid).any (fun kv =>
          match kv.2 with
          | some p => p.toggl_name == nm
          | none => false)) := by
  unfold Toggl.client_has_project prjList
  cases hc : lookupA st.clients cid with
  | none => rfl
  | some c =>
    cases hp : lookupA st.projects cid with
    | none => simp
    | some prjs => simp

theorem chp_eq_some (st : TogglState) (nm : List Char) (cid : Nat) (c : ClientProject)
    (hc : lookupA st.clients cid = some c) :
    Toggl.client_has_project st nm cid =
      if (prjList st cid).any (fun kv => kv.2.isNone) then none
      else some ((prjList st cid).any (fun kv =>
        match kv.2 with
        | some p => p.toggl_name == nm
        | none => false)) := by
  rw [chp_eq, hc]

theorem chp_some_clients (st : TogglState) (nm : List Char) (cid : Nat) (b : Bool)
    (h : Toggl.client_has_project st nm cid = some b) :
    ∃ c, lookupA st.clients cid = some c := by
  rw [chp_eq] at h
  cases hc : lookupA st.clients cid with
  | none => rw [hc] at h; simp at h
  | some c => exact ⟨c, rfl⟩

theorem stExtends_refl (st : TogglState) : stExtends st st :=
  ⟨⟨[], by simp⟩, fun _ => ⟨[], by simp, by simp⟩⟩

theorem stExtends_trans (a b c : TogglState) (h1 : stExtends a b) (h2 : stExtends b c) :
    stExtends a c := by
  obtain ⟨⟨d1, hd1⟩, hp1⟩ := h1
  obtain ⟨⟨d2, hd2⟩, hp2⟩ := h2
  refine ⟨⟨d1 ++ d2, by rw [hd2, hd1, List.append_assoc]⟩, ?_⟩
  intro cid
  obtain ⟨e1, he1, ha1⟩ := hp1 cid
  obtain ⟨e2, he2, ha2⟩ := hp2 cid
  refine ⟨e1 ++ e2, by rw [he2, he1, List.append_assoc], ?_⟩
  intro pv hpv
  rcases List.mem_append.mp hpv with hm | hm
  · exact ha1 pv hm
  · exact ha2 pv hm

theorem has_client_mono (st st2 : TogglState) (nm : List Char)
    (he : stExtends st st2) (h : Toggl.has_client st nm = true) :
    Toggl.has_client st2 nm = true := by
  obtain ⟨⟨d, hd⟩, _⟩ := he
  unfold Toggl.has_client at h ⊢
  rw [hd, List.any_append, h]
  rfl

theorem get_client_id_mono (st st2 : TogglState) (nm : List Char) (cid : Nat)
    (he : stExtends st st2) (h : Toggl.get_client_id st nm = some cid) :
    Toggl.get_client_id st2 nm = some cid := by
  obtain ⟨⟨d, hd⟩, _⟩ := he
  unfold Toggl.get_client_id at h ⊢
  rw [hd]
  cases hf : st.clients.find? (fun kv => kv.2.toggl_name == nm) with
  | none => rw [hf] at h; simp at h
  | some kv =>
    rw [hf] at h
    rw [find?_append_of_some _ _ _ _ hf]
    exact h

theorem any_isNone_false (d : List (Nat × Option ProjectBreakdown))
    (ha : ∀ pv ∈ d, pv.2.isSome = true) :
    (d.any fun kv => kv.2.isNone) = false := by
  rw [List.any_eq_false]
  intro kv hkv
  have h2 := ha kv hkv
  cases hx : kv.2 with
  | none => rw [hx] at h2; simp at h2
  | some p => simp

theorem chp_mono (st st2 : TogglState) (nm : List Char) (cid : Nat) (b : Bool)
    (he : stExtends st st2) (h : Toggl.client_has_project st nm cid = some b) :
    ∃ b2, Toggl.client_has_project st2 nm cid = some b2 ∧ (b = true → b2 = true) := by
  obtain ⟨c, hc⟩ := chp_some_clients st nm cid b h
  obtain ⟨⟨d, hd⟩, hp⟩ := he
  obtain ⟨d2, hd2, ha2⟩ := hp cid
  have hc2 : lookupA st2.clients cid = some c := by
    rw [hd]; exact lookupA_append_some _ _ _ _ hc
  rw [chp_eq_some st nm cid c hc] at h
  rw [chp_eq_some st2 nm cid c hc2, hd2, List.any_append, List.any_append]
  by_cases hA : ((prjList st cid).any fun kv => kv.2.isNone) = true
  · rw [if_pos hA] at h; simp at h
  · have hA2 : ((prjList st cid).any fun kv => kv.2.isNone) = false := by
      revert hA; cases (prjList st cid).any fun kv => kv.2.isNone <;> simp
    rw [if_neg hA] at h
    injection h with hb
    rw [hA2, any_isNone_false d2 ha2]
    refine ⟨_, by rw [if_neg (by simp)], ?_⟩
    intro hbt
    rw [hb, hbt]
    rfl

theorem pairDone_mono (auth : ClientProject → ProjectBreakdown → Bool)
    (st st2 : TogglState) (cp : ClientProject) (pb : ProjectBreakdown)
    (he : stExtends st st2) (hd : pairDone auth st cp pb) :
    pairDone auth st2 cp pb := by
  obtain ⟨hc, cid, hg, hrest⟩ := hd
  refine ⟨has_client_mono st st2 _ he hc, cid, get_client_id_mono st st2 _ cid he hg, ?_⟩
  rcases hrest with htrue | ⟨hfalse, hauth⟩
  · obtain ⟨b2, hb2, himp⟩ := chp_mono st st2 _ cid true he htrue
    rw [himp rfl] at hb2
    exact Or.inl hb2
  · obtain ⟨b2, hb2, _⟩ := chp_mono st st2 _ cid false he hfalse
    cases b2 with
    | true => exact Or.inl hb2
    | false => exact Or.inr ⟨hb2, hauth⟩

theorem add_project_clients (st : TogglState) (cid fresh : Nat) (nm : List Char) :
    (Toggl.add_project st cid fresh nm).clients = st.clients := by
  unfold Toggl.add_project
  cases lookupA st.projects cid <;> rfl

theorem add_client_some (st : TogglState) (fresh : Nat) (nm : List Char) (st1 : TogglState)
    (hb : boundState st fresh) (h : Toggl.add_client st fresh nm = some st1) :
    ∃ c, ClientProject.from_toggl nm (some fresh) = some c ∧
      st1.clients = st.clients ++ [(fresh, c)] ∧
      st1.projects = st.projects ++ [(fresh, [])] := by
  obtain ⟨hbc, hbp⟩ := hb
  unfold Toggl.add_client at h
  cases hf : ClientProject.from_toggl nm (some fresh) with
  | none => rw [hf] at h; simp at h
  | some c =>
    rw [hf] at h
    have h2 : some (⟨updateA st.clients fresh c,
        updateA st.projects fresh []⟩ : TogglState) = some st1 := h
    have h3 := Option.some.inj h2
    refine ⟨c, rfl, ?_, ?_⟩
    · rw [← h3]
      exact updateA_append _ _ _ (fun kv hkv => Nat.ne_of_lt (hbc kv hkv))
    · rw [← h3]
      exact updateA_append _ _ _ (fun kv hkv => Nat.ne_of_lt (hbp kv hkv).1)

theorem boundState_add_client (st : TogglState) (fresh : Nat) (c : ClientProject)
    (hb : boundState st fresh) :
    boundState ⟨st.clients ++ [(fresh, c)], st.projects ++ [(fresh, [])]⟩ (fresh + 1) := by
  obtain ⟨hbc, hbp⟩ := hb
  constructor
  · intro kv hkv
    rcases List.mem_append.mp hkv with hm | hm
    · exact Nat.lt_succ_of_lt (hbc kv hm)
    · have hkv2 : kv = (fresh, c) := by simpa using hm
      rw [hkv2]
      exact Nat.lt_succ_self fresh
  · intro kv hkv
    rcases List.mem_append.mp hkv with hm | hm
    · obtain ⟨x1, x2⟩ := hbp kv hm
      exact ⟨Nat.lt_succ_of_lt x1, fun pv hpv => Nat.lt_succ_of_lt (x2 pv hpv)⟩
    · have hkv2 : kv = (fresh, ([] : List (Nat × Option ProjectBreakdown))) := by
        simpa using hm
      rw [hkv2]
      exact ⟨Nat.lt_succ_self fresh, by simp⟩

theorem boundState_add_project (st : TogglState) (cid0 fresh : Nat) (nm : List Char)
    (hb : boundState st fresh) (hcid : cid0 < fresh) :
    boundState (Toggl.add_project st cid0 fresh nm) (fresh + 1) := by
  obtain ⟨hbc, hbp⟩ := hb
  constructor
  · rw [add_project_clients]
    intro kv hkv
    exact Nat.lt_succ_of_lt (hbc kv hkv)
  · unfold Toggl.add_project
    cases hl : lookupA st.projects cid0 with
    | some prjs =>
      intro kv hkv
      rcases updateA_subset _ _ _ kv hkv with h1 | h1
      · rw [h1]
        refine ⟨Nat.lt_succ_of_lt hcid, ?_⟩
        intro pv hpv
        rcases updateA_subset _ _ _ pv hpv with h2 | h2
        · rw [h2]; exact Nat.lt_succ_self fresh
        · exact Nat.lt_succ_of_lt ((hbp (cid0, prjs) (lookupA_mem _ _ _ hl)).2 pv h2)
      · obtain ⟨x1, x2⟩ := hbp kv h1
        exact ⟨Nat.lt_succ_of_lt x1, fun pv hpv => Nat.lt_succ_of_lt (x2 pv hpv)⟩
    | none =>
      intro kv hkv
      rcases updateA_subset _ _ _ kv hkv with h1 | h1
      · rw [h1]
        refine ⟨Nat.lt_succ_of_lt hcid, ?_⟩
        intro pv hpv
        have hpv2 : pv = (fresh, ProjectBreakdown.from_toggl nm (some cid0) (some fresh)) := by
          simpa using hpv
        rw [hpv2]
        exact Nat.lt_succ_self fresh
      · obtain ⟨x1, x2⟩ := hbp kv h1
        exact ⟨Nat.lt_succ_of_lt x1, fun pv hpv => Nat.lt_succ_of_lt (x2 pv hpv)⟩

theorem add_project_prjList (st : TogglState) (cid0 fresh : Nat) (nm : List Char)
    (hb : boundState st fresh) (cid : Nat) :
    prjList (Toggl.add_project st cid0 fresh nm) cid =
      if cid0 = cid then
        prjList st cid ++ [(fresh, ProjectBreakdown.from_toggl nm (some cid0) (some fresh))]
      else prjList st cid := by
  obtain ⟨hbc, hbp⟩ := hb
  cases hl : lookupA st.projects cid0 with
  | some prjs =>
    have hfr : ∀ kv ∈ prjs, kv.1 ≠ fresh :=
      fun kv hkv => Nat.ne_of_lt ((hbp (cid0, prjs) (lookupA_mem _ _ _ hl)).2 kv hkv)
    simp only [Toggl.add_project, prjList, hl]
    rw [lookupA_updateA]
    by_cases hc : cid0 = cid
    · rw [if_pos hc, if_pos hc]
      rw [updateA_append prjs fresh _ hfr]
      rw [← hc, hl]
      rfl
    · rw [if_neg hc, if_neg hc]
  | none =>
    have hfr : ∀ kv ∈ st.projects, kv.1 ≠ cid0 := lookupA_none_ne _ _ hl
    simp only [Toggl.add_project, prjList, hl]
    rw [updateA_append _ _ _ hfr, lookupA_append]
    by_cases hc : cid0 = cid
    · rw [if_pos hc, ← hc, hl]
      simp [lookupA]
    · rw [if_neg hc]
      cases hll : lookupA st.projects cid with
      | none => simp [lookupA, hc]
      | some w => simp

theorem ensure_client_cases (st : TogglState) (fresh : Nat) (nm : List Char)
    (r : TogglState × Nat × List Op) (h : ensure_client st fresh nm = some r) :
    (Toggl.has_client st nm = true ∧ r = (st, fresh, [])) ∨
    (Toggl.has_client st nm = false ∧ ∃ st1, Toggl.add_client st fresh nm = some st1 ∧
      r = (st1, fresh + 1, [Op.createClient nm])) := by
  unfold ensure_client at h
  by_cases hc : Toggl.has_client st nm = true
  · rw [if_pos hc] at h
    exact Or.inl ⟨hc, (Option.some.inj h).symm⟩
  · have hc2 : Toggl.has_client st nm = false := by
      revert hc; cases Toggl.has_client st nm <;> simp
    rw [if_neg hc] at h
    cases ha : Toggl.add_client st fresh nm with
    | none => rw [ha] at h; simp at h
    | some st1 =>
      rw [ha] at h
      have h2 : some (st1, fresh + 1, [Op.createClient nm]) = some r := h
      exact Or.inr ⟨hc2, st1, rfl, (Option.some.inj h2).symm⟩

theorem syncPair_cases (auth : ClientProject → ProjectBreakdown → Bool)
    (st : TogglState) (fresh : Nat) (cp : ClientProject) (pb : ProjectBreakdown)
    (r : TogglState × Nat × List Op) (h : syncPair auth st fresh cp pb = some r) :
    ∃ st1 fresh1 ops1 cid,
      ensure_client st fresh cp.toggl_name = some (st1, fresh1, ops1) ∧
      Toggl.get_client_id st1 cp.toggl_name = some cid ∧
      ((Toggl.client_has_project st1 pb.toggl_name cid = some true ∧
        r = (st1, fresh1, ops1)) ∨
       (Toggl.client_has_project st1 pb.toggl_name cid = some false ∧
        ((auth cp pb = true ∧
          r = (Toggl.add_project st1 cid fresh1 pb.toggl_name, fresh1 + 1,
               ops1 ++ [Op.createProject cid pb.toggl_name])) ∨
         (auth cp pb = false ∧ r = (st1, fresh1, ops1))))) := by
  unfold syncPair at h
  cases he : ensure_client st fresh cp.toggl_name with
  | none => rw [he] at h; simp at h
  | some t =>
    rw [he] at h
    obtain ⟨st1, fresh1, ops1⟩ := t
    have h2 : (match Toggl.get_client_id st1 cp.toggl_name with
      | none => none
      | some cid =>
        match Toggl.client_has_project st1 pb.toggl_name cid with
        | none => none
        | some true => some (st1, fresh1, ops1)
        | some false =>
          if auth cp pb then
            some (Toggl.add_project st1 cid fresh1 pb.toggl_name, fresh1 + 1,
                  ops1 ++ [Op.createProject cid pb.toggl_name])
          else some (st1, fresh1, ops1)) = some r := h
    cases hg : Toggl.get_client_id st1 cp.toggl_name with
    | none => rw [hg] at h2; simp at h2
    | some cid =>
      rw [hg] at h2
      have h3 : (match Toggl.client_has_project st1 pb.toggl_name cid with
        | none => none
        | some true => some (st1, fresh1, ops1)
        | some false =>
          if auth cp pb then
            some (Toggl.add_project st1 cid fresh1 pb.toggl_name, fresh1 + 1,
                  ops1 ++ [Op.createProject cid pb.toggl_name])
          else some (st1, fresh1, ops1)) = some r := h2
      cases hcp : Toggl.client_has_project st1 pb.toggl_name cid with
      | none => rw [hcp] at h3; simp at h3
      | some b =>
        rw [hcp] at h3
        cases b with
        | true =>
          have h4 : some (st1, fresh1, ops1) = some r := h3
          exact ⟨st1, fresh1, ops1, cid, rfl, hg,
            Or.inl ⟨hcp, (Option.some.inj h4).symm⟩⟩
        | false =>
          have h4 : (if auth cp pb then
              some (Toggl.add_project st1 cid fresh1 pb.toggl_name, fresh1 + 1,
                    ops1 ++ [Op.createProject cid pb.toggl_name])
            else some (st1, fresh1, ops1)) = some r := h3
          by_cases ha : auth cp pb = true
          · rw [if_pos ha] at h4
            exact ⟨st1, fresh1, ops1, cid, rfl, hg,
              Or.inr ⟨hcp, Or.inl ⟨ha, (Option.some.inj h4).symm⟩⟩⟩
          · have ha2 : auth cp pb = false := by
              revert ha; cases auth cp pb <;> simp
            rw [if_neg ha] at h4
            exact ⟨st1, fresh1, ops1, cid, rfl, hg,
              Or.inr ⟨hcp, Or.inr ⟨ha2, (Option.some.inj h4).symm⟩⟩⟩

theorem syncPair_post (auth : ClientProject → ProjectBreakdown → Bool)
    (st : TogglState) (fresh : Nat) (cp : ClientProject) (pb : ProjectBreakdown)
    (r : TogglState × Nat × List Op) (hb : boundState st fresh)
    (h : syncPair auth st fresh cp pb = some r) :
    stExtends st r.1 ∧ boundState r.1 r.2.1 ∧ fresh ≤ r.2.1 ∧ pairDone auth r.1 cp pb := by
  obtain ⟨st1, fresh1, ops1, cid, he, hg, hrest⟩ := syncPair_cases auth st fresh cp pb r h
  have hstep : stExtends st st1 ∧ boundState st1 fresh1 ∧ fresh ≤ fresh1 ∧
      Toggl.has_client st1 cp.toggl_name = true := by
    rcases ensure_client_cases st fresh cp.toggl_name _ he with ⟨hc, hr⟩ | ⟨hc, st1b, hadd, hr⟩
    · simp only [Prod.mk.injEq] at hr
      obtain ⟨rfl, rfl, rfl⟩ := hr
      exact ⟨stExtends_refl _, hb, le_refl _, hc⟩
    · simp only [Prod.mk.injEq] at hr
      obtain ⟨rfl, rfl, rfl⟩ := hr
      obtain ⟨c, hf, hcl, hpr⟩ := add_client_some st fresh cp.toggl_name _ hb hadd
      refine ⟨⟨⟨[(fresh, c)], hcl⟩, ?_⟩, ?_, Nat.le_succ fresh, ?_⟩
      · intro cid2
        refine ⟨[], ?_, by simp⟩
        unfold prjList
        rw [hpr, lookupA_append]
        cases hll : lookupA st.projects cid2 with
        | some w => simp
        | none =>
          by_cases hfc : fresh = cid2
          · simp [lookupA, hfc]
          · simp [lookupA, hfc]
      · have hbac := boundState_add_client st fresh c hb
        constructor
        · rw [hcl]; exact hbac.1
        · rw [hpr]; exact hbac.2
      · unfold Toggl.has_client
        rw [hcl, List.any_append]
        have hnm : c.toggl_name = cp.toggl_name := from_toggl_toggl_name _ _ _ hf
        simp [hnm]
  obtain ⟨hext1, hb1, hle1, hhc1⟩ := hstep
  have hcid_lt : cid < fresh1 := by
    unfold Toggl.get_client_id at hg
    cases hf : st1.clients.find? (fun kv => kv.2.toggl_name == cp.toggl_name) with
    | none => rw [hf] at hg; simp at hg
    | some kv =>
      rw [hf] at hg
      simp only [Option.map_some'] at hg
      injection hg with hg2
      rw [← hg2]
      exact hb1.1 kv (List.mem_of_find?_eq_some hf)
  rcases hrest with ⟨hcp, hr⟩ | ⟨hcp, hrest2⟩
  · rw [hr]
    exact ⟨hext1, hb1, hle1, hhc1, cid, hg, Or.inl hcp⟩
  · rcases hrest2 with ⟨hauth, hr⟩ | ⟨hauth, hr⟩
    · rw [hr]
      obtain ⟨c1, hc1⟩ := chp_some_clients st1 pb.toggl_name cid false hcp
      have hfacts : ((prjList st1 cid).any fun kv => kv.2.isNone) = false ∧
          ((prjList st1 cid).any fun kv =>
            match kv.2 with
            | some p => p.toggl_name == pb.toggl_name
            | none => false) = false := by
        rw [chp_eq_some st1 pb.toggl_name cid c1 hc1] at hcp
        by_cases hA : ((prjList st1 cid).any fun kv => kv.2.isNone) = true
        · rw [if_pos hA] at hcp; simp at hcp
        · have hA2 : ((prjList st1 cid).any fun kv => kv.2.isNone) = false := by
            revert hA; cases ((prjList st1 cid).any fun kv => kv.2.isNone) <;> simp
          rw [if_neg hA] at hcp
          injection hcp with hb2
          exact ⟨hA2, hb2⟩
      obtain ⟨hAn, hNm⟩ := hfacts
      obtain ⟨pbv, hpbv⟩ := pb_from_toggl_isSome pb.timewax_code pb.name (some cid) (some fresh1)
      have hpbv2 : ProjectBreakdown.from_toggl pb.toggl_name (some cid) (some fresh1) =
          some pbv := hpbv
      have hplAll := add_project_prjList st1 cid fresh1 pb.toggl_name hb1
      have hext2 : stExtends st1 (Toggl.add_project st1 cid fresh1 pb.toggl_name) := by
        refine ⟨⟨[], by rw [add_project_clients]; simp⟩, ?_⟩
        intro cid2
        rw [hplAll cid2]
        by_cases hc2 : cid = cid2
        · rw [if_pos hc2]
          refine ⟨[(fresh1,
            ProjectBreakdown.from_toggl pb.toggl_name (some cid) (some fresh1))], rfl, ?_⟩
          intro pv hpv
          have hpv2 : pv = (fresh1,
              ProjectBreakdown.from_toggl pb.toggl_name (some cid) (some fresh1)) := by
            simpa using hpv
          rw [hpv2, hpbv2]
          rfl
        · rw [if_neg hc2]
          exact ⟨[], by simp, by simp⟩
      have hg2 : Toggl.get_client_id (Toggl.add_project st1 cid fresh1 pb.toggl_name)
          cp.toggl_name = some cid := by
        unfold Toggl.get_client_id at hg ⊢
        rw [add_project_clients]
        exact hg
      have hhc2 : Toggl.has_client (Toggl.add_project st1 cid fresh1 pb.toggl_name)
          cp.toggl_name = true := by
        unfold Toggl.has_client at hhc1 ⊢
        rw [add_project_clients]
        exact hhc1
      have hcpNew : Toggl.client_has_project (Toggl.add_project st1 cid fresh1 pb.toggl_name)
          pb.toggl_name cid = some true := by
        have hc1b : lookupA (Toggl.add_project st1 cid fresh1 pb.toggl_name).clients cid =
            some c1 := by
          rw [add_project_clients]; exact hc1
        rw [chp_eq_some _ pb.toggl_name cid c1 hc1b, hplAll cid, if_pos rfl]
        rw [List.any_append, List.any_append, hAn, hNm, hpbv2]
        have hname : pbv.toggl_name = pb.toggl_name := pb_from_toggl_name _ _ _ _ hpbv2
        simp [hname]
      exact ⟨stExtends_trans _ _ _ hext1 hext2,
        boundState_add_project st1 cid fresh1 pb.toggl_name hb1 hcid_lt,
        le_trans hle1 (Nat.le_succ fresh1),
        hhc2, cid, hg2, Or.inl hcpNew⟩
    · rw [hr]
      exact ⟨hext1, hb1, hle1, hhc1, cid, hg, Or.inr ⟨hcp, hauth⟩⟩

theorem syncPair_id (auth : ClientProject → ProjectBreakdown → Bool)
    (st : TogglState) (fresh : Nat) (cp : ClientProject) (pb : ProjectBreakdown)
    (hd : pairDone auth st cp pb) :
    syncPair auth st fresh cp pb = some (st, fresh, []) := by
  obtain ⟨hc, cid, hg, hrest⟩ := hd
  have he : ensure_client st fresh cp.toggl_name = some (st, fresh, []) := by
    unfold ensure_client
    rw [if_pos hc]
  rcases hrest with htrue | ⟨hfalse, hauth⟩
  · simp only [syncPair, he, hg, htrue]
  · simp only [syncPair, he, hg, hfalse, hauth]
    simp

theorem sync_cons_toggl (auth : ClientProject → ProjectBreakdown → Bool)
    (cp : ClientProject) (pb : ProjectBreakdown)
    (rest : List (ClientProject × ProjectBreakdown)) (st : TogglState) (fresh : Nat) :
    sync_to_toggl auth ((cp, pb) :: rest) st fresh =
      match syncPair auth st fresh cp pb with
      | none => none
      | some (st1, fresh1, ops1) =>
        match sync_to_toggl auth rest st1 fresh1 with
        | none => none
        | some (st2, fresh2, ops2) => some (st2, fresh2, ops1 ++ ops2) := rfl

theorem sync_post (auth : ClientProject → ProjectBreakdown → Bool) :
    ∀ (l : List (ClientProject × ProjectBreakdown)) (st : TogglState) (fresh : Nat)
      (st2 : TogglState) (fresh2 : Nat) (ops : List Op),
      boundState st fresh →
      sync_to_toggl auth l st fresh = some (st2, fresh2, ops) →
      stExtends st st2 ∧ boundState st2 fresh2 ∧ fresh ≤ fresh2 ∧
        ∀ p ∈ l, pairDone auth st2 p.1 p.2 := by
  intro l
  induction l with
  | nil =>
    intro st fresh st2 fresh2 ops hb h
    have h2 : some (st, fresh, ([] : List Op)) = some (st2, fresh2, ops) := h
    simp only [Option.some.injEq, Prod.mk.injEq] at h2
    obtain ⟨rfl, rfl, rfl⟩ := h2
    exact ⟨stExtends_refl st, hb, le_refl fresh, by simp⟩
  | cons p rest ih =>
    intro st fresh st2 fresh2 ops hb h
    obtain ⟨cp, pb⟩ := p
    rw [sync_cons_toggl] at h
    cases hsp : syncPair auth st fresh cp pb with
    | none => rw [hsp] at h; simp at h
    | some r =>
      rw [hsp] at h
      obtain ⟨st1, fresh1, ops1⟩ := r
      have h3 : (match sync_to_toggl auth rest st1 fresh1 with
        | none => none
        | some (st2b, fresh2b, ops2) => some (st2b, fresh2b, ops1 ++ ops2)) =
          some (st2, fresh2, ops) := h
      cases hrec : sync_to_toggl auth rest st1 fresh1 with
      | none => rw [hrec] at h3; simp at h3
      | some r2 =>
        rw [hrec] at h3
        obtain ⟨st2b, fresh2b, ops2⟩ := r2
        have h4 : some (st2b, fresh2b, ops1 ++ ops2) = some (st2, fresh2, ops) := h3
        simp only [Option.some.injEq, Prod.mk.injEq] at h4
        obtain ⟨rfl, rfl, rfl⟩ := h4
        obtain ⟨hext1, hb1, hle1, hdone1⟩ :=
          syncPair_post auth st fresh cp pb (st1, fresh1, ops1) hb hsp
        obtain ⟨hext2, hb2, hle2, hdone2⟩ := ih st1 fresh1 st2b fresh2b ops2 hb1 hrec
        refine ⟨stExtends_trans _ _ _ hext1 hext2, hb2, le_trans hle1 hle2, ?_⟩
        intro q hq
        rcases List.mem_cons.mp hq with hq1 | hq2
        · rw [hq1]
          exact pairDone_mono auth st1 st2b cp pb hext2 hdone1
        · exact hdone2 q hq2

theorem sync_id (auth : ClientProject → ProjectBreakdown → Bool) :
    ∀ (l : List (ClientProject × ProjectBreakdown)) (st : TogglState) (fresh : Nat),
      (∀ p ∈ l, pairDone auth st p.1 p.2) →
      sync_to_toggl auth l st fresh = some (st, fresh, []) := by
  intro l
  induction l with
  | nil => intro st fresh _; rfl
  | cons p rest ih =>
    intro st fresh hall
    obtain ⟨cp, pb⟩ := p
    rw [sync_cons_toggl, syncPair_id auth st fresh cp pb (hall (cp, pb) (by simp))]
    show (match sync_to_toggl auth rest st fresh with
      | none => none
      | some (st2, fresh2, ops2) => some (st2, fresh2, ([] : List Op) ++ ops2)) =
        some (st, fresh, [])
    rw [ih st fresh (fun q hq => hall q (by simp [hq]))]
    rfl

/-- C7: hierarchy sync is idempotent. After a successful run from a state
whose ids are all below the fresh-id counter, running sync_to_toggl again
over the same catalog pairs performs no create operation and leaves the state
unchanged, because existence is checked before every create and no node is
deleted or renamed. -/
theorem c7_idempotent (auth : ClientProject → ProjectBreakdown → Bool)
    (l : List (ClientProject × ProjectBreakdown)) (st0 : TogglState) (fresh0 : Nat)
    (st1 : TogglState) (fresh1 : Nat) (ops1 : List Op)
    (hb : boundState st0 fresh0)
    (h : sync_to_toggl auth l st0 fresh0 = some (st1, fresh1, ops1)) :
    sync_to_toggl auth l st1 fresh1 = some (st1, fresh1, []) := by
  obtain ⟨_, _, _, hdone⟩ := sync_post auth l st0 fresh0 st1 fresh1 ops1 hb h
  exact sync_id auth l st1 fresh1 hdone

/-- Witness for C7: syncing one authorized pair from the empty Toggl state
creates a client and a project; running sync again from the resulting state
creates nothing. -/
theorem c7_witness :
    sync_to_toggl (fun _ _ => true) [(cpC7, pbC7)] stC7 2 = some (stC7, 2, []) :=
  c7_idempotent (fun _ _ => true) [(cpC7, pbC7)] ⟨[], []⟩ 0 stC7 2
    [Op.createClient "7654321 - Q".toList, Op.createProject 0 "7654321.1 - C".toList]
    (by simp [boundState]) (by decide)

theorem syncPair_ops (auth : ClientProject → ProjectBreakdown → Bool)
    (st : TogglState) (fresh : Nat) (cp : ClientProject) (pb : ProjectBreakdown)
    (r : TogglState × Nat × List Op) (h : syncPair auth st fresh cp pb = some r) :
    ∀ cid nm, Op.createProject cid nm ∈ r.2.2 → auth cp pb = true ∧ nm = pb.toggl_name := by
  obtain ⟨st1, fresh1, ops1, cid0, he, hg, hrest⟩ := syncPair_cases auth st fresh cp pb r h
  have hops1 : ∀ cid nm, Op.createProject cid nm ∉ ops1 := by
    rcases ensure_client_cases st fresh cp.toggl_name _ he with ⟨_, hr⟩ | ⟨_, st1b, _, hr⟩
    · simp only [Prod.mk.injEq] at hr
      rw [hr.2.2]
      simp
    · simp only [Prod.mk.injEq] at hr
      rw [hr.2.2]
      simp
  intro cid nm hmem
  rcases hrest with ⟨_, hr⟩ | ⟨_, hrest2⟩
  · rw [hr] at hmem
    exact absurd hmem (hops1 cid nm)
  · rcases hrest2 with ⟨hauth, hr⟩ | ⟨_, hr⟩
    · rw [hr] at hmem
      have hmem2 : Op.createProject cid nm ∈ ops1 ++ [Op.createProject cid0 pb.toggl_name] :=
        hmem
      rcases List.mem_append.mp hmem2 with hm | hm
      · exact absurd hm (hops1 cid nm)
      · simp at hm
        exact ⟨hauth, hm.2⟩
    · rw [hr] at hmem
      exact absurd hmem (hops1 cid nm)

/-- C2 (corrected): a child (project) node is created only for a pair that
passes the authorization check, and the created name is that pair's
breakdown; owner (client) nodes, by contrast, are created before the check
whenever missing, as the counterexample shows. -/
theorem c2_project_auth (auth : ClientProject → ProjectBreakdown → Bool) :
    ∀ (l : List (ClientProject × ProjectBreakdown)) (st : TogglState) (fresh : Nat)
      (st2 : TogglState) (fresh2 : Nat) (ops : List Op),
      sync_to_toggl auth l st fresh = some (st2, fresh2, ops) →
      ∀ cid nm, Op.createProject cid nm ∈ ops →
        ∃ cp pb, (cp, pb) ∈ l ∧ auth cp pb = true ∧ nm = pb.toggl_name := by
  intro l
  induction l with
  | nil =>
    intro st fresh st2 fresh2 ops h cid nm hmem
    have h2 : some (st, fresh, ([] : List Op)) = some (st2, fresh2, ops) := h
    simp only [Option.some.injEq, Prod.mk.injEq] at h2
    rw [← h2.2.2] at hmem
    simp at hmem
  | cons p rest ih =>
    intro st fresh st2 fresh2 ops h cid nm hmem
    obtain ⟨cp, pb⟩ := p
    rw [sync_cons_toggl] at h
    cases hsp : syncPair auth st fresh cp pb with
    | none => rw [hsp] at h; simp at h
    | some r =>
      rw [hsp] at h
      obtain ⟨st1, fresh1, ops1⟩ := r
      have h3 : (match sync_to_toggl auth rest st1 fresh1 with
        | none => none
        | some (st2b, fresh2b, ops2) => some (st2b, fresh2b, ops1 ++ ops2)) =
          some (st2, fresh2, ops) := h
      cases hrec : sync_to_toggl auth rest st1 fresh1 with
      | none => rw [hrec] at h3; simp at h3
      | some r2 =>
        rw [hrec] at h3
        obtain ⟨st2b, fresh2b, ops2⟩ := r2
        have h4 : some (st2b, fresh2b, ops1 ++ ops2) = some (st2, fresh2, ops) := h3
        simp only [Option.some.injEq, Prod.mk.injEq] at h4
        obtain ⟨rfl, rfl, rfl⟩ := h4
        rcases List.mem_append.mp hmem with hm | hm
        · obtain ⟨ha, hnm⟩ := syncPair_ops auth st fresh cp pb _ hsp cid nm hm
          exact ⟨cp, pb, by simp, ha, hnm⟩
        · obtain ⟨cp2, pb2, hmem2, ha2, hnm2⟩ := ih st1 fresh1 st2b fresh2b ops2 hrec cid nm hm
          exact ⟨cp2, pb2, by simp [hmem2], ha2, hnm2⟩

/-- C2 counterexample: with an authorization check that fails every pair, the
sync of one pair against the empty state still performs a createClient
operation, so the owner node is created for a pair failing the check,
refuting that neither node is created for such a pair. -/
theorem c2_counterexample :
    sync_to_toggl (fun _ _ => false) [(cpC2, pbC2)] ⟨[], []⟩ 0 =
      some (stC2, 1, [Op.createClient "1234567 - P".toList]) := by
  decide

/-- Witness for C2: applying the gate theorem to a run whose trace holds a
createProject operation recovers an authorized pair with that name. -/
theorem c2_witness :
    ∃ cp pb, (cp, pb) ∈ [(cpC2, pbC2)] ∧
      (fun (_ : ClientProject) (_ : ProjectBreakdown) => true) cp pb = true ∧
      "1234567.1 - B".toList = pb.toggl_name :=
  c2_project_auth (fun _ _ => true) [(cpC2, pbC2)] ⟨[], []⟩ 0 stC2b 2
    [Op.createClient "1234567 - P".toList, Op.createProject 0 "1234567.1 - B".toList]
    (by decide) 0 "1234567.1 - B".toList (by decide)

end TogglTimewax
